import Mathlib

/-!
Verification of the tab-completion engine in `src/lib/autocomplete.js`
(vorpal). JavaScript strings are embedded as `List Char`; the external
`strip-ansi` collaborator is modelled as a small escape-sequence state
machine (spec section 6 treats it as a pure formatting-code stripper).
-/

/-- JavaScript strings, embedded as character lists. -/
abbrev Str := List Char

/-- Coerce a Lean string literal to the embedding's string type. -/
def toStr (s : String) : Str := s.data

/-- JavaScript's `\s` character class (whitespace used by `trim`, the
lazy-word regex of `getSuffix`, and related code). -/
def isSpaceJS (c : Char) : Bool :=
  c = ' ' ∨ c = '\t' ∨ c = '\n' ∨ c = '\r' ∨ c = '\x0b' ∨ c = '\x0c' ∨
  c = '\u00a0' ∨ c = '\u2028' ∨ c = '\u2029' ∨ c = '\ufeff'

/-- JavaScript's regex `.` (without dotAll): any char except line terminators. -/
def jsDot (c : Char) : Bool :=
  ¬ (c = '\n' ∨ c = '\r' ∨ c = '\u2028' ∨ c = '\u2029')

/-- `String.prototype.trim`: strip leading and trailing whitespace. -/
def trimJS (s : Str) : Str :=
  ((s.dropWhile isSpaceJS).reverse.dropWhile isSpaceJS).reverse

/-- `ctx.replace(/^\s+/g, '')`: strip leading whitespace only. -/
def dropLeadingWS (s : Str) : Str := s.dropWhile isSpaceJS

/-- `String.prototype.toLowerCase` (ASCII-faithful). -/
def toLowerS (s : Str) : Str := s.map Char.toLower

/-- `x || ''` on an optional string (`undefined` becomes the empty string;
an empty string stays empty). -/
def jsOrEmptyStr (s : Option Str) : Str :=
  match s with
  | none => []
  | some v => v

/-- `String(x)` where `x` is a string or `undefined`: JavaScript renders
`undefined` as the literal text `"undefined"`. -/
def jsString (s : Option Str) : Str :=
  match s with
  | none => toStr "undefined"
  | some v => v

/-- State machine of the external `strip-ansi` collaborator: `true` means
we are inside an escape sequence begun by ESC / CSI, whose body characters
(`[()#;?` and digits) are skipped up to and including the final byte. -/
def stripAux : Bool → List Char → List Char
  | _, [] => []
  | false, c :: rest =>
    if c = '\x1b' ∨ c = '\u009b' then stripAux true rest
    else c :: stripAux false rest
  | true, c :: rest =>
    if c = '[' ∨ c = '(' ∨ c = ')' ∨ c = '#' ∨ c = ';' ∨ c = '?' ∨
       ('0' ≤ c ∧ c ≤ '9') then stripAux true rest
    else stripAux false rest

/-- Model of the external `strip(text)` formatting-code stripper
(`strip-ansi`), spec section 6. -/
def strip (s : Str) : Str := stripAux false s

/-- Length of the shortest (lazy) match of `/.+?(?=\s)/` anchored at the
head of the string, if any: one or more non-line-terminator characters
followed by a whitespace lookahead. -/
def lazyMatchLen : List Char → Option Nat
  | [] => none
  | c :: rest =>
    if jsDot c then
      match rest with
      | [] => none
      | d :: _ =>
        if isSpaceJS d then some 1 else (lazyMatchLen rest).map (· + 1)
    else none

/-- `suffix.replace(/.+?(?=\s)/, '')`: delete the first (leftmost, lazy)
match of the partial-word regex, leaving everything else in place. -/
def replaceLazyWord : List Char → List Char
  | [] => []
  | c :: rest =>
    match lazyMatchLen (c :: rest) with
    | some n => List.drop n (c :: rest)
    | none => c :: replaceLazyWord rest

/-- `getSuffix` (autocomplete.js lines 260-266): clean up the text to the
right of the cursor.  If it does not begin with a space, the remainder of
the current partial word is dropped by the regex; one further character is
then unconditionally sliced off. -/
def getSuffix (suffix : Str) : Str :=
  let s := if suffix.take 1 = [' '] then suffix else replaceLazyWord suffix
  s.drop 1

/-- A JavaScript value flowing through the data-provider plumbing: a list
of candidate strings, a plain string, `undefined`, or an opaque non-array
object such as an `Error` (tagged for distinguishability). -/
inductive JsVal where
  | arr (l : List Str)
  | str (s : Str)
  | undef
  | errVal (tag : Str)
deriving DecidableEq, Repr

/-- The observable return value of one invocation of a function-shaped
data provider: a thenable that fulfils, a thenable that rejects, or a
plain (non-thenable) value. -/
inductive FnRet where
  | thenableOk (v : JsVal)
  | thenableErr (v : JsVal)
  | plain (v : JsVal)
deriving DecidableEq, Repr

/-- Observable behaviour of one invocation of a function-shaped data
provider: its declared parameter count (`config.length`), the values it
passes to its delivery callback during the call, and its return value. -/
structure FnProvider where
  arity : Nat
  cbCalls : List JsVal
  ret : FnRet
deriving DecidableEq, Repr

/-- A data provider as duck-typed by `handleDataFormat`: an array, a
function, or anything else. -/
inductive Provider where
  | arrP (l : List Str)
  | fnP (f : FnProvider)
  | otherP
deriving DecidableEq, Repr

/-- A registered option (`cmd.options[i]`): `short`/`long` spellings and an
optional data provider for its argument values. -/
structure Opt where
  short : Option Str
  long : Option Str
  autocomplete : Option Provider
deriving DecidableEq, Repr

/-- The input state produced by `parseInput` and threaded through the
engine.  The JavaScript field `prefix` is named `pre` here (the original
name is unavailable); `context` is optional because the command-resolution
step can assign it an `undefined` scan remainder. -/
structure InputState where
  raw : Str
  pre : Str
  suffix : Str
  context : Option Str
  option : Option Str
deriving DecidableEq, Repr

/-- `parseInput` (autocomplete.js lines 209-224): break the raw prompt
line and cursor index into prefix / context / suffix, splitting on pipes. -/
def parseInput (str : Option Str) (idx : Nat) : InputState :=
  let raw := jsOrEmptyStr str
  let sliced := raw.take idx
  let sections := sliced.splitOn '|'
  let pre := List.intercalate ['|'] (sections.dropLast ++ [[]])
  let suffix := getSuffix (raw.drop idx)
  let context := sections.getLast?.getD []
  { raw := raw, pre := pre, suffix := suffix, context := some context,
    option := none }

/-- `assembleInput` (autocomplete.js lines 169-175): reassemble the final
display string and strip formatting codes. -/
def assembleInput (input : InputState) : Str :=
  strip (input.pre ++ (jsOrEmptyStr input.context) ++ input.suffix)

/-- `filterData` (autocomplete.js lines 188-195): keep the candidates whose
stripped text starts with the trimmed context. -/
def filterData (str : Option Str) (data : List Str) : List Str :=
  let ctx := trimJS (jsOrEmptyStr str)
  data.filter (fun item => decide ((strip item).take ctx.length = ctx))

example : getSuffix (toStr "abc") = toStr "bc" := by decide
example : getSuffix (toStr " xy") = toStr "xy" := by decide
example : getSuffix (toStr "ab cd") = toStr "cd" := by decide
example : strip (toStr "ab") = toStr "ab" := by decide
example : assembleInput (parseInput (some (toStr "ab")) 1) = toStr "a" := by decide
example : (parseInput (some (toStr "foo | bar")) 8).pre = toStr "foo |" := by decide

/-- Code-unit lexicographic "less than" on strings, the default comparison
of JavaScript's `Array.prototype.sort` for string elements. -/
def strLtJS : Str → Str → Bool
  | [], [] => false
  | [], _ :: _ => true
  | _ :: _, [] => false
  | a :: as, b :: bs =>
    if a.val < b.val then true
    else if b.val < a.val then false
    else strLtJS as bs

/-- Insert into a `strLtJS`-sorted list, keeping it sorted. -/
def insertSorted (x : Str) : List Str → List Str
  | [] => [x]
  | y :: ys => if strLtJS y x then y :: insertSorted x ys else x :: y :: ys

/-- `arr.sort()`: sort strings in code-unit lexicographic order.  The
engine only ever observes the sorted sequence of string values, which is
the same for any sorting algorithm over this total order, so JavaScript's
sort is modelled by insertion sort. -/
def sortJS (l : List Str) : List Str := l.foldr insertSorted []

/-- The filtered candidate list built inside `autocomplete.match`
(autocomplete.js lines 74-79): the sorted candidates whose stripped,
lower-cased prefix equals the lower-cased probe. -/
def matchesOf (str : Str) (arr : List Str) : List Str :=
  (sortJS arr).filter
    (fun x => decide (toLowerS ((strip x).take str.length) = toLowerS str))

/-- The common-extension loop of `autocomplete.match` (autocomplete.js
lines 86-101), with the iteration count made explicit as fuel: `k` runs
from the probe length up to `matches[0].length`, extending `furthest` to
the lower-cased stripped prefix of `matches[0]` of length `k` as long as
every match agrees with it. -/
def matchGo (ms : List Str) (m0 : Str) : Nat → Nat → Str → Str
  | 0, _, furthest => furthest
  | fuel + 1, k, furthest =>
    let curr := toLowerS ((strip m0).take k)
    if (ms.filter
        (fun mj => decide (toLowerS ((strip mj).take curr.length) = curr))).length
        = ms.length
    then matchGo ms m0 fuel (k + 1) curr
    else furthest

/-- `autocomplete.match` (autocomplete.js lines 67-108; named `matchFn`
because `match` is a Lean keyword): a single match is completed with a
trailing space; several matches are narrowed to their furthest common
extension; otherwise there is no result. -/
def matchFn (str : Str) (arr : List Str) : Option Str :=
  let ms := matchesOf str arr
  if ms.length = 1 then some ((ms.headD []) ++ [' '])
  else if ms.length = 0 then none
  else
    let m0 := ms.headD []
    let furthest := matchGo ms m0 (m0.length + 1 - str.length) str.length str
    if furthest = str then none else some furthest

/-- `getMatch` (autocomplete.js lines 144-158): match the context with its
leading spaces removed and re-attached. -/
def getMatch (ctx : Str) (data : List Str) : Option Str :=
  let len := ctx.length
  let trimmed := dropLeadingWS ctx
  let m := matchFn trimmed data
  let pre := List.replicate (len - trimmed.length) ' '
  match m with
  | some mm => some (pre ++ mm)
  | none => none

/-- A command's `_autocomplete` configuration: either a provider directly
or an object `{data: provider}` whose `data` field is unwrapped. -/
inductive ACConf where
  | plain (p : Provider)
  | withData (p : Provider)
deriving DecidableEq, Repr

/-- `conf = (conf && conf.data) ? conf.data : conf` (autocomplete.js
line 414). -/
def confData : Option ACConf → Option Provider
  | none => none
  | some (.plain p) => some p
  | some (.withData p) => some p

/-- A registered command as read from the registry (`this.parent.commands`). -/
structure Cmd where
  _name : Str
  _aliases : List Str
  _catch : Bool
  options : List Opt
  _autocomplete : Option ACConf
deriving DecidableEq, Repr

/-- `getCommandNames` (autocomplete.js lines 277-282): all names followed
by all aliases, sorted. -/
def getCommandNames (cmds : List Cmd) : List Str :=
  sortJS (cmds.map (fun c => c._name) ++ (cmds.map (fun c => c._aliases)).flatten)

/-- One step of the `commands.forEach` scan of `getMatchObject`
(autocomplete.js lines 303-309), acting on the mutable triple
(match, suffix, prefix accumulator). -/
def scanStep (trimmed : Str) (st : Option Str × Option Str × Str) (cmd : Str) :
    Option Str × Option Str × Str :=
  if trimmed.take cmd.length = cmd ∧ trimJS cmd ≠ [] then
    (some cmd, some (trimmed.drop cmd.length), st.2.2 ++ trimmed.take cmd.length)
  else st

/-- The alias `forEach` fallback of `getMatchObject` (autocomplete.js
lines 315-322): the loop has no early exit, so the last alias holder
wins.  It runs whenever no command was found by name, even when the scan
found no match (the lookup key is then `String(undefined) = "undefined"`). -/
def aliasLookup (registry : List Cmd) (key : Str) : Option Cmd :=
  registry.foldl (fun acc c => if key ∈ c._aliases then some c else acc) none

/-- Resolution of a truthy scan match (autocomplete.js lines 311-322):
lookup by primary name, falling back to the alias loop. -/
def resolveNameOrAlias (registry : List Cmd) (key : Str) : Option Cmd :=
  (registry.find? (fun c => c._name == key)) <|> aliasLookup registry key

/-- The engine state after command resolution, extending `InputState` with
the matched command (`input.match` in the JavaScript). -/
structure MatchedInput where
  raw : Str
  pre : Str
  suffix : Str
  context : Option Str
  option : Option Str
  matched : Option Cmd
deriving DecidableEq, Repr

/-- View an `InputState` as a `MatchedInput` with no match yet. -/
def InputState.toMatched (i : InputState) : MatchedInput :=
  { raw := i.raw, pre := i.pre, suffix := i.suffix, context := i.context,
    option := i.option, matched := none }

/-- `getMatchObject` (autocomplete.js lines 297-342): scan the registered
names for literal prefixes of the context; the `_.find` name lookup runs
only when the scan found a (truthy) match, while the alias loop runs on
any unresolved match value, `undefined` included; then fall back to the
catch-all command, and on success fold the consumed text into the prefix
and shrink the context. -/
def getMatchObject (input : MatchedInput) (commands : List Str)
    (registry : List Cmd) : MatchedInput :=
  let ctx := input.context.getD []
  let trimmed := dropLeadingWS ctx
  let pre0 := List.replicate (ctx.length - trimmed.length) ' '
  let scan := commands.foldl (scanStep trimmed) (none, none, pre0)
  let key := trimJS (jsString scan.1)
  let resolved :=
    match scan.1 with
    | some _ => resolveNameOrAlias registry key
    | none => aliasLookup registry key
  match resolved with
  | some c =>
      { input with matched := some c,
                   pre := input.pre ++ scan.2.2,
                   context := scan.2.1 }
  | none =>
      match registry.find? (fun c => c._catch) with
      | some cc =>
          { input with matched := some cc,
                       pre := input.pre ++ scan.2.2,
                       context := input.context }
      | none => input

/-- `parseMatchSection` (autocomplete.js lines 239-249): the last
space-separated token of the context becomes the new context, the token
before it is recorded as the active option when it starts with a dash,
and the rest is folded into the prefix. -/
def parseMatchSection (input : MatchedInput) : MatchedInput :=
  let parts := (jsOrEmptyStr input.context).splitOn ' '
  let last := parts.getLast?.getD []
  let rest := parts.dropLast
  let beforeLast := trimJS (strip (rest.getLast?.getD []))
  { input with
    context := some last,
    pre := input.pre ++ List.intercalate [' '] rest ++ [' '],
    option := if beforeLast.take 1 = ['-'] then some beforeLast else input.option }

/-- Truthiness of an optional string (`undefined` and `''` are falsy). -/
def jsFalsyStrOpt : Option Str → Bool
  | none => true
  | some s => s.isEmpty

/-- Truthiness of a `JsVal` in our value universe (`undefined` and `''`
are falsy; arrays and objects are truthy). -/
def jsFalsyVal : JsVal → Bool
  | .undef => true
  | .str s => s.isEmpty
  | .arr _ => false
  | .errVal _ => false

/-- The option-flag synthesis loop of `getMatchData` (autocomplete.js
lines 363-372): one entry per option, the long form when truthy,
otherwise the truthy short form. -/
def optionResults (options : List Opt) : List Str :=
  options.foldl
    (fun results o =>
      if jsFalsyStrOpt o.long = true ∧ jsFalsyStrOpt o.short = false then
        results ++ [o.short.getD []]
      else if jsFalsyStrOpt o.long = false then results ++ [o.long.getD []]
      else results)
    []

/-- `handleDataFormat` (autocomplete.js lines 377-399), with the provider's
observable behaviour given as data. The result is the ordered list of
values delivered to `callback`: synchronous delivery-callback calls first
(arity at least 2, each value coerced with `res || []`), then the settled
value of a thenable return, then — for arity below 2 and a non-thenable
return — the return value itself; a non-array non-function config delivers
one empty list. -/
def handleDataFormat (config : Option Provider) : List JsVal :=
  match config with
  | some (.arrP l) => [.arr l]
  | some (.fnP f) =>
      let cbkDs :=
        if f.arity < 2 then []
        else f.cbCalls.map (fun v => if jsFalsyVal v then JsVal.arr [] else v)
      match f.ret with
      | .thenableOk v => cbkDs ++ [v]
      | .thenableErr e => cbkDs ++ [e]
      | .plain v => cbkDs ++ (if f.arity < 2 then [v] else [])
  | some .otherP => [.arr []]
  | none => [.arr []]

/-- `getMatchData` (autocomplete.js lines 356-417) as the ordered list of
values delivered to its callback.  The `matched = none` case cannot arise
(in `exec` the call is guarded by `input.match`; in JavaScript it would
throw on `cmd.options`). -/
def getMatchData (input : MatchedInput) : List JsVal :=
  match input.matched with
  | none => []
  | some cmd =>
    let string := input.context
    let midOption := (trimJS (jsString string)).take 1 = ['-']
    if midOption then [JsVal.arr (optionResults cmd.options)]
    else
      match input.option with
      | some o =>
          let opt := trimJS (strip o)
          let shortMatch := cmd.options.find? (fun x => x.short == some opt)
          let longMatch := cmd.options.find? (fun x => x.long == some opt)
          match longMatch <|> shortMatch with
          | some m => handleDataFormat m.autocomplete
          | none => handleDataFormat (confData cmd._autocomplete)
      | none => handleDataFormat (confData cmd._autocomplete)

/-- A value handed to `end`/`handleTabCounts`: the assembled single string
or the filtered candidate list. -/
inductive CbRes where
  | s (x : Str)
  | l (x : List Str)
deriving DecidableEq, Repr

/-- `handleTabCounts` (autocomplete.js lines 120-132): lists bump the tab
counter and only show once it exceeds one (an empty list shows as no
result); a string resets the counter and is returned at once.  Returns the
new counter and the result. -/
def handleTabCounts (ctr : Nat) (str : CbRes) : Nat × Option CbRes :=
  match str with
  | .l arr =>
      let ctr' := ctr + 1
      (ctr', if 1 < ctr' then (if arr.length = 0 then none else some (.l arr)) else none)
  | .s x => (0, some (.s x))

example : matchFn (toStr "P") [toStr "PULL", toStr "PUSH"] = some (toStr "pu") := by decide
example : matchFn (toStr "p") [toStr "push", toStr "pull"] = some (toStr "pu") := by decide
example : matchFn (toStr "pu") [toStr "push"] = some (toStr "push ") := by decide
example : matchFn (toStr "x") [toStr "push"] = none := by decide
example : optionResults [⟨some (toStr "-f"), some (toStr "--force"), none⟩] = [toStr "--force"] := by decide

/-- `arr = arr || []; arr.sort()` applied to a delivered value
(autocomplete.js lines 68-69 via the continuation in lines 43-51): a falsy
value becomes the empty list, an array is used as is, and calling `sort`
(or later `filter`) on a truthy non-array throws a `TypeError`, modelled
as the error case. -/
def jsToArr : JsVal → Except Unit (List Str)
  | .arr l => .ok l
  | .undef => .ok []
  | .str s => if s.isEmpty then .ok [] else .error ()
  | .errVal _ => .error ()

/-- The `end` helper of `exec` (autocomplete.js lines 29-32): run the tab
counter and invoke `cb(undefined, res)`.  Returns the new counter and the
callback invocation (error slot, result slot). -/
def endStep (ctr : Nat) (s : CbRes) : Nat × (JsVal × Option CbRes) :=
  let r := handleTabCounts ctr s
  (r.1, (JsVal.undef, r.2))

/-- The continuation passed to `getMatchData` in `exec` (autocomplete.js
lines 43-51), processing one delivered value: throws when the value is a
truthy non-array, otherwise completes via `getMatch`/`assembleInput` or
`filterData`. -/
def runCont (ctr : Nat) (input : MatchedInput) (d : JsVal) :
    Except Unit (Nat × MatchedInput × (JsVal × Option CbRes)) :=
  match jsToArr d with
  | .error _ => .error ()
  | .ok arr =>
    match getMatch (input.context.getD []) arr with
    | some dm =>
        let input' := { input with context := some dm }
        let st := endStep ctr (.s (strip (input'.pre ++ (jsOrEmptyStr input'.context) ++ input'.suffix)))
        .ok (st.1, input', st.2)
    | none =>
        let st := endStep ctr (.l (filterData input.context arr))
        .ok (st.1, input, st.2)

/-- Process the deliveries of `getMatchData` in order.  A throw in one
continuation aborts the remaining deliveries (in JavaScript the exception
propagates out of the provider call or poisons the promise chain) and the
completion callback is not invoked for them.  Returns the final counter,
the callback invocations made, and whether an exception escaped. -/
def runDeliveries (ctr : Nat) (input : MatchedInput) :
    List JsVal → Nat × List (JsVal × Option CbRes) × Bool
  | [] => (ctr, [], false)
  | d :: ds =>
    match runCont ctr input d with
    | .error _ => (ctr, [], true)
    | .ok (ctr', input', call) =>
        let rest := runDeliveries ctr' input' ds
        (rest.1, call :: rest.2.1, rest.2.2)

/-- The observable outcome of one `exec` run: the completion-callback
invocations (error slot, result slot), whether an exception escaped the
engine, and the final tab counter. -/
structure ExecOut where
  calls : List (JsVal × Option CbRes)
  crash : Bool
  ctr : Nat
deriving DecidableEq, Repr

/-- `exec` (autocomplete.js lines 23-55), the public entry point, with the
cursor position, registry and tab counter made explicit parameters. -/
def exec (str : Option Str) (cursor : Nat) (registry : List Cmd) (ctr : Nat) :
    ExecOut :=
  let input := parseInput str cursor
  let commands := getCommandNames registry
  let vorpalMatch := getMatch (input.context.getD []) commands
  match vorpalMatch with
  | some vm =>
      let input' := { input with context := some vm }
      let st := endStep ctr (.s (assembleInput input'))
      { calls := [st.2], crash := false, ctr := st.1 }
  | none =>
      let input2 := getMatchObject input.toMatched commands registry
      match input2.matched with
      | some _ =>
          let input3 := parseMatchSection input2
          let ds := getMatchData input3
          let r := runDeliveries ctr input3 ds
          { calls := r.2.1, crash := r.2.2, ctr := r.1 }
      | none =>
          let st := endStep ctr (.l (filterData input2.context commands))
          { calls := [st.2], crash := false, ctr := st.1 }

example :
    exec (some (toStr "x")) 1 [] 0 =
      { calls := [(JsVal.undef, none)], crash := false, ctr := 1 } := by decide


/-- Stripped-and-lower-cased view of a candidate, the form in which
`autocomplete.match` compares strings. -/
def lwStrip (s : Str) : Str := toLowerS (strip s)

theorem stripAux_length_le : ∀ (s : List Char) (b : Bool),
    (stripAux b s).length ≤ s.length := by
  intro s
  induction s with
  | nil => intro b; cases b <;> simp [stripAux]
  | cons c rest ih =>
    intro b
    cases b with
    | false =>
      simp only [stripAux]
      split
      · exact Nat.le_succ_of_le (ih true)
      · simpa using ih false
    | true =>
      simp only [stripAux]
      split
      · exact Nat.le_succ_of_le (ih true)
      · exact Nat.le_succ_of_le (ih false)

theorem strip_length_le (s : Str) : (strip s).length ≤ s.length :=
  stripAux_length_le s false

theorem takePref (n : Nat) (l : List Char) : l.take n <+: l :=
  ⟨l.drop n, List.take_append_drop n l⟩

theorem prefIffTake (l₁ l₂ : Str) : l₁ <+: l₂ ↔ l₁ = l₂.take l₁.length :=
  List.prefix_iff_eq_take

theorem prefTakeEq {q X : Str} (h : q <+: X) {i : Nat} (hi : i ≤ q.length) :
    X.take i = q.take i := by
  obtain ⟨t, rfl⟩ := h
  exact List.take_append_of_le_length hi

theorem headD_mem {α : Type} (l : List α) (d : α) (h : l ≠ []) : l.headD d ∈ l := by
  cases l with
  | nil => exact absurd rfl h
  | cons a t => simp [List.headD]

theorem lwStrip_take (m : Str) (k : Nat) :
    toLowerS ((strip m).take k) = (lwStrip m).take k := by
  simp [lwStrip, toLowerS, List.map_take]

theorem intercalate_cons_ne (sep a : List Char) (l : List (List Char)) (h : l ≠ []) :
    List.intercalate sep (a :: l) = a ++ sep ++ List.intercalate sep l := by
  cases l with
  | nil => exact absurd rfl h
  | cons b t =>
    simp [List.intercalate, List.intersperse_cons_cons, List.append_assoc]

theorem intercalate_init_append (sep : List Char) :
    ∀ (init : List (List Char)) (y : List Char),
      List.intercalate sep (init ++ [[]]) ++ y = List.intercalate sep (init ++ [y]) := by
  intro init
  induction init with
  | nil => intro y; simp [List.intercalate]
  | cons a init ih =>
    intro y
    rw [List.cons_append, List.cons_append,
      intercalate_cons_ne sep a (init ++ [[]]) (by simp),
      intercalate_cons_ne sep a (init ++ [y]) (by simp),
      List.append_assoc, List.append_assoc, ih y, List.append_assoc]

theorem splitOn_pre_last (s : Str) :
    List.intercalate ['|'] ((s.splitOn '|').dropLast ++ [[]]) ++
      ((s.splitOn '|').getLast?.getD []) = s := by
  have hne : s.splitOn '|' ≠ [] := by
    unfold List.splitOn
    exact List.splitOnP_ne_nil _ _
  rw [List.getLast?_eq_getLast _ hne]
  simp only [Option.getD_some]
  rw [intercalate_init_append ['|'] ((s.splitOn '|').dropLast)
      ((s.splitOn '|').getLast hne),
    List.dropLast_append_getLast hne, List.intercalate_splitOn]

theorem noWS_lazyMatchLen : ∀ (s : Str), (∀ c ∈ s, isSpaceJS c = false) →
    lazyMatchLen s = none := by
  intro s
  induction s with
  | nil => intro _; rfl
  | cons c rest ih =>
    intro h
    have hrest : ∀ x ∈ rest, isSpaceJS x = false :=
      fun x hx => h x (List.mem_cons_of_mem _ hx)
    unfold lazyMatchLen
    cases rest with
    | nil => by_cases hc : jsDot c = true <;> simp [hc]
    | cons d t =>
      have hd : isSpaceJS d = false := h d (by simp)
      by_cases hc : jsDot c = true
      · simp [hc, hd, ih hrest]
      · simp [hc]

theorem noWS_replaceLazyWord : ∀ (s : Str), (∀ c ∈ s, isSpaceJS c = false) →
    replaceLazyWord s = s := by
  intro s
  induction s with
  | nil => intro _; rfl
  | cons c rest ih =>
    intro h
    have hrest : ∀ x ∈ rest, isSpaceJS x = false :=
      fun x hx => h x (List.mem_cons_of_mem _ hx)
    unfold replaceLazyWord
    rw [noWS_lazyMatchLen (c :: rest) h]
    rw [ih hrest]

/-- C10 (confirmed): on a post-cursor remainder that does not begin with a
space and contains no whitespace character at all, the partial-word regex
of `getSuffix` matches nothing, yet one character is still unconditionally
sliced off, so `getSuffix` returns the remainder with only its first
character removed. -/
theorem c10_getSuffix_drops_first_char (s : Str)
    (h1 : s.take 1 ≠ [' '])
    (h2 : ∀ c ∈ s, isSpaceJS c = false) :
    getSuffix s = s.drop 1 := by
  unfold getSuffix
  rw [if_neg h1, noWS_replaceLazyWord s h2]

/-- Witness for C10 at the remainder `"abc"`: the suffix becomes `"bc"`,
losing the character `a`. -/
theorem c10_witness : getSuffix (toStr "abc") = (toStr "abc").drop 1 :=
  c10_getSuffix_drops_first_char (toStr "abc") (by decide) (by decide)

/-- C1 counterexample: for the raw line `"ab"` with the cursor at index 1,
`assembleInput (parseInput "ab" 1)` yields `"a"`, not `strip "ab" = "ab"`:
`getSuffix` drops the post-cursor character, so splitting is not a
left-inverse of assembly at mid-line cursors. -/
theorem c1_counterexample :
    assembleInput (parseInput (some (toStr "ab")) 1) ≠ strip (toStr "ab") := by
  decide

/-- C1 (corrected): when the cursor sits at the end of the raw line (the
post-cursor remainder is empty), assembling the result of splitting with
unmodified context reconstructs the stripped raw line. -/
theorem c1_assemble_of_parse_at_end (R : Str) :
    assembleInput (parseInput (some R) R.length) = strip R := by
  simp only [parseInput, assembleInput, jsOrEmptyStr, List.take_length,
    List.drop_length]
  have hsuffix : getSuffix [] = [] := rfl
  rw [hsuffix, List.append_nil, splitOn_pre_last]

/-- C3 (confirmed): `handleTabCounts` on a list result increments the tab
counter and returns a visible result only when the counter exceeds 1 (and
the list is nonempty; otherwise `undefined`); on a single string it resets
the counter to 0 and returns the string immediately. -/
theorem c3_handleTabCounts_protocol (ctr : Nat) (l : List Str) (x : Str) :
    (handleTabCounts ctr (.l l)).1 = ctr + 1 ∧
    (handleTabCounts ctr (.l l)).2 =
      (if 1 < ctr + 1 ∧ l ≠ [] then some (.l l) else none) ∧
    handleTabCounts ctr (.s x) = (0, some (.s x)) := by
  refine ⟨rfl, ?_, rfl⟩
  by_cases h1 : 1 < ctr + 1 <;> by_cases h2 : l = [] <;>
    simp [handleTabCounts, h1, h2, List.length_eq_zero]

/-- C7 counterexample: a provider that declares a delivery callback
(arity 2), synchronously delivers `["a"]` through it, and returns a
thenable resolving to `["b"]` produces two deliveries — the claim's
"return value is ignored" and "exactly one delivery" both fail. -/
theorem c7_counterexample :
    handleDataFormat (some (.fnP
      { arity := 2, cbCalls := [JsVal.arr [toStr "a"]],
        ret := .thenableOk (JsVal.arr [toStr "b"]) })) =
      [JsVal.arr [toStr "a"], JsVal.arr [toStr "b"]] ∧
    (handleDataFormat (some (.fnP
      { arity := 2, cbCalls := [JsVal.arr [toStr "a"]],
        ret := .thenableOk (JsVal.arr [toStr "b"]) }))).length ≠ 1 := by
  decide

/-- C7 (corrected): for a function-shaped provider whose return value is
not a thenable: declaring fewer than two parameters makes the return value
the single delivery; declaring a delivery callback makes the deliveries
exactly the values passed to that callback (falsy values coerced to `[]`),
the return value being ignored — hence exactly one delivery when the
callback is invoked exactly once.  (A thenable return value is
additionally delivered regardless of arity.) -/
theorem c7_dispatch_by_arity (a : Nat) (calls : List JsVal) (v : JsVal) :
    (a < 2 → handleDataFormat (some (.fnP { arity := a, cbCalls := calls, ret := .plain v })) = [v]) ∧
    (2 ≤ a → handleDataFormat (some (.fnP { arity := a, cbCalls := calls, ret := .plain v })) =
      calls.map (fun c => if jsFalsyVal c then JsVal.arr [] else c)) ∧
    (2 ≤ a → calls.length = 1 →
      (handleDataFormat (some (.fnP { arity := a, cbCalls := calls, ret := .plain v }))).length = 1) := by
  refine ⟨?_, ?_, ?_⟩
  · intro h
    simp [handleDataFormat, h]
  · intro h
    simp [handleDataFormat, Nat.not_lt.mpr h]
  · intro h h1
    simp [handleDataFormat, Nat.not_lt.mpr h, h1]

/-- Witness for C7: a one-parameter provider returning the plain array
`["x"]` yields that value as the unique delivery. -/
theorem c7_witness :
    handleDataFormat (some (.fnP
      { arity := 1, cbCalls := [], ret := .plain (JsVal.arr [toStr "x"]) })) =
      [JsVal.arr [toStr "x"]] :=
  (c7_dispatch_by_arity 1 [] (JsVal.arr [toStr "x"])).1 (by decide)

theorem optionResults_foldl (opts : List Opt)
    (h : ∀ o ∈ opts, jsFalsyStrOpt o.long = false ∨ jsFalsyStrOpt o.short = false) :
    ∀ acc : List Str,
      opts.foldl
        (fun results o =>
          if jsFalsyStrOpt o.long = true ∧ jsFalsyStrOpt o.short = false then
            results ++ [o.short.getD []]
          else if jsFalsyStrOpt o.long = false then results ++ [o.long.getD []]
          else results)
        acc =
      acc ++ opts.map
        (fun o => if jsFalsyStrOpt o.long = false then o.long.getD []
                  else o.short.getD []) := by
  induction opts with
  | nil => intro acc; simp
  | cons o t ih =>
    intro acc
    have ht : ∀ x ∈ t, jsFalsyStrOpt x.long = false ∨ jsFalsyStrOpt x.short = false :=
      fun x hx => h x (List.mem_cons_of_mem _ hx)
    have ho := h o (by simp)
    rw [List.foldl_cons, List.map_cons]
    by_cases hl : jsFalsyStrOpt o.long = false
    · have hcond : ¬ (jsFalsyStrOpt o.long = true ∧ jsFalsyStrOpt o.short = false) := by
        intro hc
        rw [hl] at hc
        exact Bool.false_ne_true hc.1
      rw [if_neg hcond, if_pos hl, ih ht, if_pos hl]
      simp
    · have hl' : jsFalsyStrOpt o.long = true := by
        cases hx : jsFalsyStrOpt o.long with
        | false => exact absurd hx hl
        | true => rfl
      have hs : jsFalsyStrOpt o.short = false := by
        rcases ho with h1 | h2
        · exact absurd h1 hl
        · exact h2
      rw [if_pos ⟨hl', hs⟩, ih ht, if_neg hl]
      simp

/-- C8 (confirmed): when the matched command's context trims to text
beginning with a dash, `getMatchData` ignores the command's data provider
entirely and synthesizes one candidate per declared option — the long form
when present (truthy), otherwise the short form. -/
theorem c8_option_flag_bypass (raw pre suffix : Str) (ctxv opt : Option Str)
    (cmd : Cmd)
    (hmid : (trimJS (jsString ctxv)).take 1 = ['-'])
    (hopts : ∀ o ∈ cmd.options,
      jsFalsyStrOpt o.long = false ∨ jsFalsyStrOpt o.short = false) :
    ∀ conf' : Option ACConf,
      getMatchData
        { raw := raw, pre := pre, suffix := suffix, context := ctxv,
          option := opt, matched := some { cmd with _autocomplete := conf' } } =
        [JsVal.arr (cmd.options.map
          (fun o => if jsFalsyStrOpt o.long = false then o.long.getD []
                    else o.short.getD []))] := by
  intro conf'
  unfold getMatchData
  simp only [hmid, if_pos]
  rw [show optionResults cmd.options =
      cmd.options.map (fun o => if jsFalsyStrOpt o.long = false then o.long.getD []
                                else o.short.getD []) from by
    unfold optionResults
    simpa using optionResults_foldl cmd.options hopts []]

/-- Witness for C8: options `{short:"-f", long:"--force"}` with context
`"-"` synthesize exactly `["--force"]`, whatever the provider is. -/
theorem c8_witness :
    getMatchData
      { raw := [], pre := [], suffix := [], context := some (toStr "-"),
        option := none,
        matched := some
          { _name := toStr "cmd", _aliases := [], _catch := false,
            options := [{ short := some (toStr "-f"), long := some (toStr "--force"),
                          autocomplete := none }],
            _autocomplete := none } } =
      [JsVal.arr [toStr "--force"]] := by
  have h := c8_option_flag_bypass [] [] [] (some (toStr "-")) none
    { _name := toStr "cmd", _aliases := [], _catch := false,
      options := [{ short := some (toStr "-f"), long := some (toStr "--force"),
                    autocomplete := none }],
      _autocomplete := none }
    (by decide) (by decide) none
  simpa using h

/-- C2 (code bug): with one command `run` whose autocomplete provider
returns a promise rejecting with an `Error`, `exec` on the line `"run a"`
(cursor at 5) delivers the rejection value into `match`/`filterData`,
where `arr.sort` throws a `TypeError`: an exception escapes and the
completion callback is never invoked, contradicting the spec's guarantee
that no unhandled exception path escapes the public entry point. -/
theorem c2_rejection_crashes_exec :
    exec (some (toStr "run a")) 5
      [{ _name := toStr "run", _aliases := [], _catch := false, options := [],
         _autocomplete := some (.plain (.fnP
           { arity := 1, cbCalls := [],
             ret := .thenableErr (JsVal.errVal (toStr "boom")) })) }] 0 =
      { calls := [], crash := true, ctr := 0 } := by
  decide

theorem runCont_errSlot (ctr : Nat) (input : MatchedInput) (d : JsVal)
    (out : Nat × MatchedInput × (JsVal × Option CbRes))
    (h : runCont ctr input d = .ok out) : out.2.2.1 = JsVal.undef := by
  unfold runCont at h
  split at h
  · exact absurd h (by simp)
  · split at h
    · have h2 := Except.ok.inj h
      rw [← h2]
      rfl
    · have h2 := Except.ok.inj h
      rw [← h2]
      rfl

theorem runDeliveries_errSlot : ∀ (ds : List JsVal) (ctr : Nat)
    (input : MatchedInput) (c : JsVal) (r : Option CbRes),
    (c, r) ∈ (runDeliveries ctr input ds).2.1 → c = JsVal.undef := by
  intro ds
  induction ds with
  | nil =>
    intro ctr input c r h
    simp [runDeliveries] at h
  | cons d t ih =>
    intro ctr input c r h
    unfold runDeliveries at h
    cases hrc : runCont ctr input d with
    | error e =>
      rw [hrc] at h
      simp at h
    | ok out =>
      rw [hrc] at h
      obtain ⟨ctr', input', call⟩ := out
      simp only [List.mem_cons] at h
      rcases h with h | h
      · have hslot := runCont_errSlot ctr input d (ctr', input', call) hrc
        rw [← h] at hslot
        exact hslot
      · exact ih ctr' input' c r h

/-- C6 (confirmed): a rejecting promise-returning provider delivers its
rejection value to exactly the same continuation, and in the same
position, as fulfilment data does (`handleDataFormat` behaves identically
on a rejection and on a fulfilment carrying the same value), and every
completion-callback invocation that `exec` ever makes carries `undefined`
in its error slot — the engine raises no distinct error for provider
failure. -/
theorem c6_rejection_to_data_slot :
    (∀ (a : Nat) (calls : List JsVal) (e : JsVal),
      handleDataFormat (some (.fnP { arity := a, cbCalls := calls, ret := .thenableErr e })) =
      handleDataFormat (some (.fnP { arity := a, cbCalls := calls, ret := .thenableOk e }))) ∧
    (∀ (str : Option Str) (cursor : Nat) (reg : List Cmd) (ctr : Nat)
      (c : JsVal) (r : Option CbRes),
      (c, r) ∈ (exec str cursor reg ctr).calls → c = JsVal.undef) := by
  constructor
  · intro a calls e
    simp [handleDataFormat]
  · intro str cursor reg ctr c r h
    simp only [exec] at h
    split at h
    · simp only [endStep, List.mem_singleton, Prod.mk.injEq] at h
      exact h.1
    · split at h
      · exact runDeliveries_errSlot _ _ _ _ _ h
      · simp only [endStep, List.mem_singleton, Prod.mk.injEq] at h
        exact h.1

/-- Witness for C6: a run of `exec` on the line `"x"` with an empty
registry makes one callback invocation, whose error slot is `undefined`. -/
theorem c6_witness :
    (JsVal.undef, (none : Option CbRes)) ∈ (exec (some (toStr "x")) 1 [] 0).calls ∧
    JsVal.undef = JsVal.undef :=
  ⟨by decide,
   c6_rejection_to_data_slot.2 (some (toStr "x")) 1 [] 0 JsVal.undef none (by decide)⟩

theorem foldl_scan_nil (trimmed : Str) :
    ∀ (l : List Str),
      l.filter (fun x => decide (trimmed.take x.length = x ∧ trimJS x ≠ [])) = [] →
      ∀ st : Option Str × Option Str × Str, l.foldl (scanStep trimmed) st = st := by
  intro l
  induction l with
  | nil => intro _ st; rfl
  | cons a t ih =>
    intro h st
    rw [List.filter_eq_nil_iff] at h
    have ha := h a (by simp)
    simp only [decide_eq_true_eq] at ha
    rw [List.foldl_cons, show scanStep trimmed st a = st from if_neg ha]
    refine ih ?_ st
    rw [List.filter_eq_nil_iff]
    intro x hx
    exact h x (List.mem_cons_of_mem _ hx)

theorem foldl_scan_single (trimmed cmd : Str) :
    ∀ (l : List Str),
      l.filter (fun x => decide (trimmed.take x.length = x ∧ trimJS x ≠ [])) = [cmd] →
      ∀ st : Option Str × Option Str × Str,
        l.foldl (scanStep trimmed) st =
          (some cmd, some (trimmed.drop cmd.length), st.2.2 ++ trimmed.take cmd.length) := by
  intro l
  induction l with
  | nil => intro h; exact absurd h (by simp)
  | cons a t ih =>
    intro h st
    by_cases ha : trimmed.take a.length = a ∧ trimJS a ≠ []
    · rw [List.filter_cons_of_pos (by simpa using ha)] at h
      have hat := List.cons.inj h
      rw [List.foldl_cons, show scanStep trimmed st a =
          (some a, some (trimmed.drop a.length), st.2.2 ++ trimmed.take a.length) from if_pos ha,
        foldl_scan_nil trimmed t hat.2, hat.1]
    · rw [List.filter_cons_of_neg (by simpa using ha)] at h
      rw [List.foldl_cons, show scanStep trimmed st a = st from if_neg ha]
      exact ih h st

/-- C5 counterexample: with registered names `["f", "fo"]` both literal
prefixes of the context `"foo"`, the scan appends every matching token, so
the resulting prefix is `"ffo"` — the consumed token `"fo"` is not
absorbed exactly once (the claim predicts prefix `"fo"`). -/
theorem c5_counterexample :
    (getMatchObject
      { raw := toStr "foo", pre := [], suffix := [], context := some (toStr "foo"),
        option := none, matched := none }
      [toStr "f", toStr "fo"]
      [{ _name := toStr "f", _aliases := [], _catch := false, options := [],
         _autocomplete := none },
       { _name := toStr "fo", _aliases := [], _catch := false, options := [],
         _autocomplete := none }]).pre = toStr "ffo" ∧
    toStr "ffo" ≠ toStr "fo" := by
  decide

/-- C5 (corrected): when exactly one registered name is a literal
(nonblank) prefix of the leading-whitespace-trimmed context and it
resolves by name or alias, the resulting context is the remainder after
that token and the resulting prefix is the old prefix plus the context's
leading whitespace plus the consumed token exactly once.  (When several
names match, the scan appends each of them to the prefix.) -/
theorem c5_prefix_absorbs_token (input : MatchedInput) (cmds : List Str)
    (registry : List Cmd) (ctx cmdTok : Str) (c : Cmd)
    (hctx : input.context = some ctx)
    (huniq : cmds.filter (fun x =>
      decide ((dropLeadingWS ctx).take x.length = x ∧ trimJS x ≠ [])) = [cmdTok])
    (hres : resolveNameOrAlias registry (trimJS cmdTok) = some c) :
    (getMatchObject input cmds registry).matched = some c ∧
    (getMatchObject input cmds registry).context =
      some ((dropLeadingWS ctx).drop cmdTok.length) ∧
    (getMatchObject input cmds registry).pre =
      input.pre ++ List.replicate (ctx.length - (dropLeadingWS ctx).length) ' ' ++ cmdTok := by
  have hmem : cmdTok ∈ cmds.filter (fun x =>
      decide ((dropLeadingWS ctx).take x.length = x ∧ trimJS x ≠ [])) := by
    rw [huniq]
    exact List.mem_singleton_self cmdTok
  have hpred := List.of_mem_filter hmem
  simp only [decide_eq_true_eq] at hpred
  unfold getMatchObject
  rw [hctx]
  simp only [Option.getD_some]
  rw [foldl_scan_single (dropLeadingWS ctx) cmdTok cmds huniq, hpred.1]
  simp only [jsString]
  rw [hres]
  exact ⟨rfl, rfl, by simp [List.append_assoc]⟩

/-- Witness for C5: prefix `""` and context `" foo"` with the single
matching name `"foo"` resolve to the command `foo`, leaving context `""`
and prefix `" foo"`. -/
theorem c5_witness :
    (getMatchObject
      { raw := toStr " foo", pre := [], suffix := [], context := some (toStr " foo"),
        option := none, matched := none }
      [toStr "foo"]
      [{ _name := toStr "foo", _aliases := [], _catch := false, options := [],
         _autocomplete := none }]).matched =
      some { _name := toStr "foo", _aliases := [], _catch := false, options := [],
             _autocomplete := none } ∧
    (getMatchObject
      { raw := toStr " foo", pre := [], suffix := [], context := some (toStr " foo"),
        option := none, matched := none }
      [toStr "foo"]
      [{ _name := toStr "foo", _aliases := [], _catch := false, options := [],
         _autocomplete := none }]).context = some [] ∧
    (getMatchObject
      { raw := toStr " foo", pre := [], suffix := [], context := some (toStr " foo"),
        option := none, matched := none }
      [toStr "foo"]
      [{ _name := toStr "foo", _aliases := [], _catch := false, options := [],
         _autocomplete := none }]).pre = toStr " foo" := by
  have h := c5_prefix_absorbs_token
    { raw := toStr " foo", pre := [], suffix := [], context := some (toStr " foo"),
      option := none, matched := none }
    [toStr "foo"]
    [{ _name := toStr "foo", _aliases := [], _catch := false, options := [],
       _autocomplete := none }]
    (toStr " foo") (toStr "foo")
    { _name := toStr "foo", _aliases := [], _catch := false, options := [],
      _autocomplete := none }
    rfl (by decide) (by decide)
  refine ⟨h.1, ?_, ?_⟩
  · rw [h.2.1]
    decide
  · rw [h.2.2]
    decide

/-- C9 counterexample: on scan failure the alias loop still runs, with
the sentinel key `String(undefined) = "undefined"`, so in a registry
where some command has the literal alias `"undefined"` plus a catch-all,
a context (`"xyz"`) matching no name or alias resolves to the alias
holder instead of the catch-all (and its context becomes the undefined
scan remainder rather than passing through). -/
theorem c9_counterexample :
    (getMatchObject
      { raw := toStr "xyz", pre := [], suffix := [], context := some (toStr "xyz"),
        option := none, matched := none }
      (getCommandNames
        [{ _name := toStr "real", _aliases := [toStr "undefined"], _catch := false,
           options := [], _autocomplete := none },
         { _name := toStr "all", _aliases := [], _catch := true, options := [],
           _autocomplete := none }])
      [{ _name := toStr "real", _aliases := [toStr "undefined"], _catch := false,
         options := [], _autocomplete := none },
       { _name := toStr "all", _aliases := [], _catch := true, options := [],
         _autocomplete := none }]).matched =
      some { _name := toStr "real", _aliases := [toStr "undefined"], _catch := false,
             options := [], _autocomplete := none } ∧
    ({ _name := toStr "real", _aliases := [toStr "undefined"], _catch := false,
       options := [], _autocomplete := (none : Option ACConf) } : Cmd)._catch = false := by
  decide

/-- C9 (corrected): for a registry containing a catch-all command in which
no command alias equals the literal string `"undefined"`, and a context of
which no registered name is a literal (nonblank) prefix, `getMatchObject`
resolves to the catch-all command and passes the entire original context
through unchanged as the new context. -/
theorem c9_catch_all_fallback (input : MatchedInput) (cmds : List Str)
    (registry : List Cmd) (ctx : Str) (cc : Cmd)
    (hctx : input.context = some ctx)
    (hnone : cmds.filter (fun x =>
      decide ((dropLeadingWS ctx).take x.length = x ∧ trimJS x ≠ [])) = [])
    (hundef : aliasLookup registry (toStr "undefined") = none)
    (hcatch : registry.find? (fun c => c._catch) = some cc) :
    (getMatchObject input cmds registry).matched = some cc ∧
    (getMatchObject input cmds registry).context = input.context := by
  unfold getMatchObject
  rw [hctx]
  simp only [Option.getD_some]
  rw [foldl_scan_nil (dropLeadingWS ctx) cmds hnone]
  simp only [jsString]
  rw [show trimJS (toStr "undefined") = toStr "undefined" from by decide, hundef, hcatch]
  exact ⟨rfl, rfl⟩

/-- Witness for C9: commands `["help"]` plus a catch-all `"all"` (no
aliases), input context `"xyz"`: the catch-all is matched and the context
`"xyz"` is passed through unchanged. -/
theorem c9_witness :
    (getMatchObject
      { raw := toStr "xyz", pre := [], suffix := [], context := some (toStr "xyz"),
        option := none, matched := none }
      [toStr "help"]
      [{ _name := toStr "help", _aliases := [], _catch := false, options := [],
         _autocomplete := none },
       { _name := toStr "all", _aliases := [], _catch := true, options := [],
         _autocomplete := none }]).matched =
      some { _name := toStr "all", _aliases := [], _catch := true, options := [],
             _autocomplete := none } ∧
    (getMatchObject
      { raw := toStr "xyz", pre := [], suffix := [], context := some (toStr "xyz"),
        option := none, matched := none }
      [toStr "help"]
      [{ _name := toStr "help", _aliases := [], _catch := false, options := [],
         _autocomplete := none },
       { _name := toStr "all", _aliases := [], _catch := true, options := [],
         _autocomplete := none }]).context = some (toStr "xyz") := by
  have h := c9_catch_all_fallback
    { raw := toStr "xyz", pre := [], suffix := [], context := some (toStr "xyz"),
      option := none, matched := none }
    [toStr "help"]
    [{ _name := toStr "help", _aliases := [], _catch := false, options := [],
       _autocomplete := none },
     { _name := toStr "all", _aliases := [], _catch := true, options := [],
       _autocomplete := none }]
    (toStr "xyz")
    { _name := toStr "all", _aliases := [], _catch := true, options := [],
      _autocomplete := none }
    rfl (by decide) (by decide) (by decide)
  exact ⟨h.1, h.2⟩


theorem filterAll_iff (ms : List Str) (curr : Str) :
    ((ms.filter (fun mj => decide ((lwStrip mj).take curr.length = curr))).length
      = ms.length) ↔ ∀ mj ∈ ms, curr <+: lwStrip mj := by
  rw [List.filter_length_eq_length]
  constructor
  · intro h mj hmj
    have hx := h mj hmj
    rw [decide_eq_true_eq] at hx
    rw [prefIffTake]
    exact hx.symm
  · intro h mj hmj
    rw [decide_eq_true_eq]
    exact ((prefIffTake curr (lwStrip mj)).mp (h mj hmj)).symm

theorem matchGo_succ (ms : List Str) (m0 : Str) (n k : Nat) (f : Str) :
    matchGo ms m0 (n + 1) k f =
      if ∀ mj ∈ ms, (lwStrip m0).take k <+: lwStrip mj
      then matchGo ms m0 n (k + 1) ((lwStrip m0).take k)
      else f := by
  rw [matchGo]
  simp only [lwStrip_take]
  by_cases h : ∀ mj ∈ ms, (lwStrip m0).take k <+: lwStrip mj
  · rw [if_pos ((filterAll_iff ms ((lwStrip m0).take k)).mpr h), if_pos h]
  · rw [if_neg (fun hc => h ((filterAll_iff ms ((lwStrip m0).take k)).mp hc)),
      if_neg h]

theorem matchGo_common (ms : List Str) (m0 : Str) :
    ∀ (fuel k : Nat) (f : Str),
      (∀ mj ∈ ms, f <+: lwStrip mj) →
      ∀ mj ∈ ms, matchGo ms m0 fuel k f <+: lwStrip mj := by
  intro fuel
  induction fuel with
  | zero => intro k f h; exact h
  | succ n ih =>
    intro k f h
    rw [matchGo_succ]
    by_cases hc : ∀ mj ∈ ms, (lwStrip m0).take k <+: lwStrip mj
    · rw [if_pos hc]
      exact ih (k + 1) _ hc
    · rw [if_neg hc]
      exact h

theorem matchGo_skip (ms : List Str) (m0 : Str) :
    ∀ (d fuel k : Nat) (f : Str),
      (∀ i, k ≤ i → i < k + d → ∀ mj ∈ ms, (lwStrip m0).take i <+: lwStrip mj) →
      d ≤ fuel →
      matchGo ms m0 fuel k f =
        matchGo ms m0 (fuel - d) (k + d)
          (if 0 < d then (lwStrip m0).take (k + d - 1) else f) := by
  intro d
  induction d with
  | zero => intro fuel k f _ _; simp
  | succ n ih =>
    intro fuel k f h hd
    cases fuel with
    | zero => omega
    | succ m =>
      rw [matchGo_succ]
      have hk : ∀ mj ∈ ms, (lwStrip m0).take k <+: lwStrip mj :=
        h k (le_refl k) (by omega)
      rw [if_pos hk]
      rw [ih m (k + 1) ((lwStrip m0).take k)
        (fun i hi1 hi2 => h i (by omega) (by omega)) (by omega)]
      have harg : (if 0 < n then (lwStrip m0).take (k + 1 + n - 1)
          else (lwStrip m0).take k) = (lwStrip m0).take (k + n) := by
        rcases Nat.eq_zero_or_pos n with hn | hn
        · subst hn; simp
        · rw [if_pos hn]
          congr 1
          omega
      rw [harg, if_pos (Nat.succ_pos n)]
      have e1 : m - n = m + 1 - (n + 1) := by omega
      have e2 : k + 1 + n = k + (n + 1) := by omega
      have e3 : k + (n + 1) - 1 = k + n := by omega
      rw [e1, e2, e3]

theorem matchGo_exhaust (ms : List Str) (m0 : Str) (fuel k : Nat) (f : Str)
    (h : ∀ i, k ≤ i → i < k + fuel → ∀ mj ∈ ms, (lwStrip m0).take i <+: lwStrip mj) :
    matchGo ms m0 fuel k f =
      if 0 < fuel then (lwStrip m0).take (k + fuel - 1) else f := by
  have hskip := matchGo_skip ms m0 fuel fuel k f h (le_refl fuel)
  rw [Nat.sub_self] at hskip
  exact hskip

theorem commonPref_all (ms : List Str) (m0 : Str) (hm0 : m0 ∈ ms) (q : Str)
    (hq : ∀ mj ∈ ms, q <+: lwStrip mj) :
    ∀ i, i ≤ q.length → ∀ mj ∈ ms, (lwStrip m0).take i <+: lwStrip mj := by
  intro i hi mj hmj
  rw [prefTakeEq (hq m0 hm0) hi]
  exact (takePref i q).trans (hq mj hmj)

/-- C4 counterexample: `match("P", ["PULL","PUSH"])` returns `"pu"` — the
extension is returned lower-cased, not in the candidates' original casing
`"PU"`, and it is not a literal prefix of the matching element `"PULL"`. -/
theorem c4_counterexample :
    matchFn (toStr "P") [toStr "PULL", toStr "PUSH"] = some (toStr "pu") ∧
    ¬ (toStr "pu" <+: toStr "PULL") := by
  decide

/-- C4 (corrected): when at least two candidates match the probe `p`
case-insensitively (formatting-stripped) and the stripped, lower-cased
matches share a common prefix `q` strictly longer than `p`, `match`
returns the longest common prefix of the stripped lower-cased matches:
the returned string is a case-insensitive prefix of every matching
element, and no common (case-insensitive) prefix is longer.  It is
returned stripped and lower-cased, not in original casing. -/
theorem c4_longest_common_extension (p : Str) (L : List Str) (q : Str)
    (hlen : 2 ≤ (matchesOf p L).length)
    (hq : ∀ m ∈ matchesOf p L, q <+: lwStrip m)
    (hqlong : p.length < q.length) :
    ∃ r, matchFn p L = some r ∧
      (∀ m ∈ matchesOf p L, r <+: lwStrip m) ∧
      (∀ q' : Str, (∀ m ∈ matchesOf p L, q' <+: lwStrip m) →
        q'.length ≤ r.length) := by
  classical
  set ms := matchesOf p L with hms
  have hne : ms ≠ [] := by
    intro h
    rw [h] at hlen
    simp at hlen
  set m0 := ms.headD [] with hm0def
  have hm0 : m0 ∈ ms := headD_mem ms [] hne
  have hqR : q <+: lwStrip m0 := hq m0 hm0
  have hqRlen : q.length ≤ (lwStrip m0).length := hqR.length_le
  have hRm0 : (lwStrip m0).length ≤ m0.length := by
    unfold lwStrip toLowerS
    rw [List.length_map]
    exact strip_length_le m0
  set fuel := m0.length + 1 - p.length with hfuel
  have hfuelpos : 0 < fuel := by omega
  by_cases hall : ∀ i, p.length ≤ i → i < p.length + fuel →
      ∀ mj ∈ ms, (lwStrip m0).take i <+: lwStrip mj
  · have hrun := matchGo_exhaust ms m0 fuel p.length p hall
    rw [if_pos hfuelpos] at hrun
    rw [List.take_of_length_le (by omega)] at hrun
    refine ⟨lwStrip m0, ?_, ?_, ?_⟩
    · simp only [matchFn]
      rw [← hms, ← hm0def, ← hfuel]
      rw [if_neg (by omega), if_neg (by omega), hrun]
      have hne' : lwStrip m0 ≠ p := by
        intro he
        have := congrArg List.length he
        omega
      rw [if_neg hne']
    · intro m hm
      have hx := hall m0.length (by omega) (by omega) m hm
      rw [List.take_of_length_le (by omega)] at hx
      exact hx
    · intro q' hq'
      exact (hq' m0 hm0).length_le
  · push_neg at hall
    set K := Nat.find hall with hK
    have hspec := Nat.find_spec hall
    rw [← hK] at hspec
    obtain ⟨hKle, hKlt, mjbad, hmjbad, hbad⟩ := hspec
    have hmin : ∀ i, p.length ≤ i → i < K →
        ∀ mj ∈ ms, (lwStrip m0).take i <+: lwStrip mj := by
      intro i hi1 hi2 mj hmj
      by_contra hc
      exact Nat.find_min hall (hK ▸ hi2) ⟨hi1, by omega, mj, hmj, hc⟩
    have hKq : q.length < K := by
      by_contra hc
      push_neg at hc
      exact hbad (commonPref_all ms m0 hm0 q hq K hc mjbad hmjbad)
    have hfailK : ¬ ∀ mj ∈ ms, (lwStrip m0).take K <+: lwStrip mj :=
      fun hA => hbad (hA mjbad hmjbad)
    have hKR : K ≤ (lwStrip m0).length := by
      by_contra hc
      push_neg at hc
      apply hfailK
      intro mj hmj
      have hKm1 : (lwStrip m0).take K = (lwStrip m0).take (K - 1) := by
        rw [List.take_of_length_le (by omega), List.take_of_length_le (by omega)]
      rw [hKm1]
      exact hmin (K - 1) (by omega) (by omega) mj hmj
    set d := K - p.length with hd
    have hdpos : 0 < d := by omega
    have hskip := matchGo_skip ms m0 d fuel p.length p
      (fun i hi1 hi2 => hmin i hi1 (by omega)) (by omega)
    rw [if_pos hdpos] at hskip
    have hkd : p.length + d = K := by omega
    rw [hkd] at hskip
    obtain ⟨m, hm⟩ : ∃ m, fuel - d = m + 1 := ⟨fuel - d - 1, by omega⟩
    rw [hm, matchGo_succ, if_neg hfailK] at hskip
    have hrlen : ((lwStrip m0).take (K - 1)).length = K - 1 := by
      rw [List.length_take]
      omega
    refine ⟨(lwStrip m0).take (K - 1), ?_, ?_, ?_⟩
    · simp only [matchFn]
      rw [← hms, ← hm0def, ← hfuel]
      rw [if_neg (by omega), if_neg (by omega), hskip]
      have hne' : (lwStrip m0).take (K - 1) ≠ p := by
        intro he
        have := congrArg List.length he
        omega
      rw [if_neg hne']
    · intro m' hm'
      exact hmin (K - 1) (by omega) (by omega) m' hm'
    · intro q' hq'
      by_contra hc
      push_neg at hc
      apply hfailK
      intro mj hmj
      have hq'R : q' <+: lwStrip m0 := hq' m0 hm0
      have hKq' : K ≤ q'.length := by omega
      rw [prefTakeEq hq'R hKq']
      exact (takePref K q').trans (hq' mj hmj)

/-- Witness for C4: probe `"p"` with candidates `["push","pull"]` (which
share the longer common prefix `"pu"`): the theorem applies and `match`
returns the two-character extension. -/
theorem c4_witness :
    ∃ r, matchFn (toStr "p") [toStr "push", toStr "pull"] = some r ∧
      (∀ m ∈ matchesOf (toStr "p") [toStr "push", toStr "pull"], r <+: lwStrip m) ∧
      (∀ q' : Str, (∀ m ∈ matchesOf (toStr "p") [toStr "push", toStr "pull"],
        q' <+: lwStrip m) → q'.length ≤ r.length) :=
  c4_longest_common_extension (toStr "p") [toStr "push", toStr "pull"] (toStr "pu")
    (by decide) (by decide) (by decide)
